import Mathlib

/-!
Shallow embedding of the HTML-to-PDF layout engine of `md2pdf_simple`
(`src/md2pdf/pdf_generator.py`, class `HTMLToPDFConverter`), together with
proofs settling the specification claims about it.

Strings are modelled as `List Char` (Python `str`), bytes as `List Nat`,
floating-point display dimensions as exact rationals `ℚ`.  External
side-effecting collaborators (HTTP fetch, base64 decoding, raster decoding)
are oracle functions collected in an `Env`; the converter's mutable state
(`self.story`, the paragraph/code accumulators, `self.image_cache`) is
threaded explicitly.
-/

namespace Md2Pdf

/-- Python `str.strip` whitespace class (ASCII part). -/
def isWS (c : Char) : Bool :=
  c = ' ' || c = '\t' || c = '\n' || c = '\r' || c = '\x0b' || c = '\x0c'

/-- Python `line.strip()`: drop leading and trailing whitespace. -/
def pstrip (s : List Char) : List Char :=
  (((s.dropWhile isWS).reverse).dropWhile isWS).reverse

/-- ASCII lowering of one character (model of Python `str.lower`). -/
def lowerChar (c : Char) : Char :=
  if 'A' ≤ c ∧ c ≤ 'Z' then Char.ofNat (c.toNat + 32) else c

/-- Model of Python `str.lower()` (ASCII fragment). -/
def lowerStr (s : List Char) : List Char := s.map lowerChar

/-- Python `html.split('\n')` (keeps empty pieces; always non-empty result). -/
def splitLines : List Char → List (List Char)
  | [] => [[]]
  | c :: rest =>
    if c = '\n' then [] :: splitLines rest
    else
      match splitLines rest with
      | l :: ls => (c :: l) :: ls
      | [] => [[c]]

/-- Python substring test `pat in s` (left-to-right scan). -/
def hasSub (pat : List Char) : List Char → Bool
  | [] => pat.isEmpty
  | c :: rest => pat.isPrefixOf (c :: rest) || hasSub pat rest

/-- `text.replace('&lt;', '<')`: single left-to-right non-overlapping pass. -/
def replLt : List Char → List Char
  | '&' :: 'l' :: 't' :: ';' :: rest => '<' :: replLt rest
  | c :: rest => c :: replLt rest
  | [] => []

/-- `text.replace('&gt;', '>')`. -/
def replGt : List Char → List Char
  | '&' :: 'g' :: 't' :: ';' :: rest => '>' :: replGt rest
  | c :: rest => c :: replGt rest
  | [] => []

/-- `text.replace('&amp;', '&')`. -/
def replAmp : List Char → List Char
  | '&' :: 'a' :: 'm' :: 'p' :: ';' :: rest => '&' :: replAmp rest
  | c :: rest => c :: replAmp rest
  | [] => []

/-- `text.replace('&quot;', '"')`. -/
def replQuot : List Char → List Char
  | '&' :: 'q' :: 'u' :: 'o' :: 't' :: ';' :: rest => '"' :: replQuot rest
  | c :: rest => c :: replQuot rest
  | [] => []

/-- `text.replace('&nbsp;', ' ')`. -/
def replNbsp : List Char → List Char
  | '&' :: 'n' :: 'b' :: 's' :: 'p' :: ';' :: rest => ' ' :: replNbsp rest
  | c :: rest => c :: replNbsp rest
  | [] => []

/-- The five sequential entity replacements of `_clean_html_tags`
(lines 368-372), in source order: lt, gt, amp, quot, nbsp. -/
def decodeEntities (s : List Char) : List Char :=
  replNbsp (replQuot (replAmp (replGt (replLt s))))

/-- `re.sub(r'<[^>]+>', '', text)`: drop every span from a `<` to the first
following `>` provided at least one character lies strictly between; an
unmatched `<` (no later `>`, or an immediately following `>`) stays literal.
The accumulator holds the characters seen since the pending `<` (reversed). -/
def stripTagsAux : Option (List Char) → List Char → List Char
  | none, [] => []
  | some buf, [] => '<' :: buf.reverse
  | none, c :: rest =>
    if c = '<' then stripTagsAux (some []) rest
    else c :: stripTagsAux none rest
  | some buf, c :: rest =>
    if c = '>' then
      if buf.isEmpty then '<' :: '>' :: stripTagsAux none rest
      else stripTagsAux none rest
    else stripTagsAux (some (c :: buf)) rest

/-- Tag removal of `_clean_html_tags` line 375 (also reused at line 244). -/
def stripTags (s : List Char) : List Char := stripTagsAux none s

/-- `_clean_html_tags` (pdf_generator.py lines 365-377): entity decoding
FIRST, tag stripping SECOND — that is the order the source performs them. -/
def clean_html_tags (s : List Char) : List Char := stripTags (decodeEntities s)

/-- `re.sub(r'</[^>]+>', '', line)` (closing-tag removal, line 255). -/
def stripCloseAux : Option (List Char) → List Char → List Char
  | none, [] => []
  | some buf, [] => '<' :: '/' :: buf.reverse
  | none, '<' :: '/' :: rest => stripCloseAux (some []) rest
  | none, c :: rest => c :: stripCloseAux none rest
  | some buf, c :: rest =>
    if c = '>' then
      if buf.isEmpty then '<' :: '/' :: '>' :: stripCloseAux none rest
      else stripCloseAux none rest
    else stripCloseAux (some (c :: buf)) rest

/-- Closing-tag removal used when a code block terminates. -/
def stripClosingTags (s : List Char) : List Char := stripCloseAux none s

/-- `re.sub(r'</?blockquote>', '', line)` (line 334). -/
def removeBQ : List Char → List Char
  | '<' :: 'b' :: 'l' :: 'o' :: 'c' :: 'k' :: 'q' :: 'u' :: 'o' :: 't' :: 'e' :: '>' :: rest =>
      removeBQ rest
  | '<' :: '/' :: 'b' :: 'l' :: 'o' :: 'c' :: 'k' :: 'q' :: 'u' :: 'o' :: 't' :: 'e' :: '>' :: rest =>
      removeBQ rest
  | c :: rest => c :: removeBQ rest
  | [] => []

/-- Split a string at the first single or double quote character: returns the
part before the quote and the part after it (the greedy `[^"\x27]+` character
class of the attribute regexes stops exactly at the first quote). -/
def splitAtQuote : List Char → Option (List Char × List Char)
  | [] => none
  | c :: rest =>
    if c = '"' ∨ c = '\'' then some ([], rest)
    else (splitAtQuote rest).map (fun p => (c :: p.1, p.2))

/-- Try, anchored at the current position, the regex
`name["\x27]([^"\x27]+)["\x27]` (or with `*` when `minOne` is false): used for
`src=` / `alt=` attribute extraction in `_process_image` (lines 140, 147). -/
def matchAttrAt (name : List Char) (minOne : Bool) (s : List Char) : Option (List Char) :=
  if name.isPrefixOf s then
    match List.drop name.length s with
    | q :: rest =>
      if q = '"' ∨ q = '\'' then
        match splitAtQuote rest with
        | some (val, _) => if minOne ∧ val = [] then none else some val
        | none => none
      else none
    | [] => none
  else none

/-- `re.search`: try an anchored matcher at every position, left to right. -/
def searchPos (f : List Char → Option (List Char)) : List Char → Option (List Char)
  | [] => none
  | c :: rest =>
    match f (c :: rest) with
    | some v => some v
    | none => searchPos f rest

/-- `re.search(r'src=["\x27]([^"\x27]+)["\x27]', img_tag)` (line 140). -/
def extractSrc (line : List Char) : Option (List Char) :=
  searchPos (matchAttrAt "src=".toList true) line

/-- `re.search(r'alt=["\x27]([^"\x27]*)["\x27]', img_tag)` (line 147). -/
def extractAlt (line : List Char) : Option (List Char) :=
  searchPos (matchAttrAt "alt=".toList false) line

/-- Anchored matcher for `class=["\x27]language-([^"\x27]+)["\x27]` (line 241). -/
def matchLangAt (s : List Char) : Option (List Char) :=
  if "class=".toList.isPrefixOf s then
    match List.drop 6 s with
    | q :: rest =>
      if q = '"' ∨ q = '\'' then
        if "language-".toList.isPrefixOf rest then
          match splitAtQuote (List.drop 9 rest) with
          | some (val, _) => if val = [] then none else some val
          | none => none
        else none
      else none
    | [] => none
  else none

/-- Language-class extraction at code-block entry (line 241). -/
def extractLanguage (line : List Char) : Option (List Char) :=
  searchPos matchLangAt line

/-- Split at the first occurrence of `pat` (non-empty literal): returns the
text before the occurrence and the text after it. -/
def findSublist (pat : List Char) : List Char → Option (List Char × List Char)
  | [] => none
  | c :: rest =>
    if pat.isPrefixOf (c :: rest) then some ([], List.drop pat.length (c :: rest))
    else (findSublist pat rest).map (fun p => (c :: p.1, p.2))

/-- The optional `(?:\s+id="([^"]+)")?` group of the heading regexes
(lines 286, 299, 311): consume whitespace, `id="`, a non-empty run of
non-quote characters and the closing quote; return the remainder. -/
def matchIdGroup (s : List Char) : Option (List Char) :=
  if (s.takeWhile isWS).isEmpty then none
  else
    let r := s.dropWhile isWS
    if "id=\"".toList.isPrefixOf r then
      match splitAtQuote (List.drop 4 r) with
      | some (val, after) => if val = [] then none else some after
      | none => none
    else none

/-- `re.match(r'<hN(?:\s+id="([^"]+)")?>(.*?)</hN>', line)`: anchored heading
match returning the inner text (the lazy group stops at the first closing
tag).  `d` is the level digit. -/
def matchHeading (d : Char) (line : List Char) : Option (List Char) :=
  if ['<', 'h', d].isPrefixOf line then
    let rest := List.drop 3 line
    let afterGt : Option (List Char) :=
      match matchIdGroup rest with
      | some r =>
        match r with
        | '>' :: r2 => some r2
        | _ => none
      | none =>
        match rest with
        | '>' :: r2 => some r2
        | _ => none
    match afterGt with
    | some body => (findSublist ['<', '/', 'h', d, '>'] body).map (fun p => p.1)
    | none => none
  else none

/-- Python `'\n'.join(parts)`. -/
def joinNL : List (List Char) → List Char
  | [] => []
  | [p] => p
  | p :: q :: rest => p ++ '\n' :: joinNL (q :: rest)

/-! ### Image acquisition and fitting -/

/-- Oracles for the external collaborators of `_download_image` and
`_process_image`: HTTP fetch (`requests.get`, `none` = network error,
timeout or non-success status), base64 decoding of a data-URL payload
(`none` = malformed payload), and raster decoding (`none` = PIL
verification failure / unreadable image; `some (w, h)` = the natural
display dimensions ReportLab derives from the bytes). -/
structure Env where
  fetch : List Char → Option (List Nat)
  b64decode : List Char → Option (List Nat)
  imgDims : List Nat → Option (ℚ × ℚ)

/-- The acquisition state of the converter: `self.image_cache` plus
instrumentation counters for the underlying fetch / decode operations
(the "call counter" of the spec's idempotence property). -/
structure AcqState where
  imageCache : List (List Char × List Nat)
  fetchCount : Nat
  decodeCount : Nat
deriving DecidableEq

/-- `_download_image` (pdf_generator.py lines 110-135): cache lookup, then
either data-URL decoding or remote fetch; every exception path yields `none`;
only successes populate the cache, keyed by the exact reference string. -/
def download_image (env : Env) (url : List Char) (s : AcqState) :
    Option (List Nat) × AcqState :=
  match s.imageCache.lookup url with
  | some bytes => (some bytes, s)
  | none =>
    if "data:".toList.isPrefixOf url then
      match findSublist [','] url with
      | none => (none, s)
      | some (_, payload) =>
        let s1 : AcqState := { s with decodeCount := s.decodeCount + 1 }
        match env.b64decode payload with
        | none => (none, s1)
        | some bytes => (some bytes, { s1 with imageCache := (url, bytes) :: s1.imageCache })
    else
      let s1 : AcqState := { s with fetchCount := s.fetchCount + 1 }
      match env.fetch url with
      | none => (none, s1)
      | some bytes => (some bytes, { s1 with imageCache := (url, bytes) :: s1.imageCache })

/-- Role-specific bounding box of `_process_image` (lines 173-188):
`is_math` and the inline test exactly as in the source; ReportLab's
`inch` is 72 points. -/
def maxBounds (alt : List Char) (h : ℚ) : ℚ × ℚ :=
  let is_math := hasSub "Math".toList alt || hasSub "math".toList (lowerStr alt)
  if is_math then
    if hasSub "inline".toList (lowerStr alt) || h < 30 then
      (4 * 72, (1 / 2 : ℚ) * 72)
    else
      (5 * 72, 2 * 72)
  else
    (6 * 72, 4 * 72)

/-- The two scaling passes of `_process_image` (lines 190-196): width pass
first, then height pass on the result. -/
def fitDims (alt : List Char) (w h : ℚ) : ℚ × ℚ :=
  let mw := (maxBounds alt h).1
  let mh := (maxBounds alt h).2
  let w1 := if w > mw then mw else w
  let h1 := if w > mw then h * (mw / w) else h
  if h1 > mh then (w1 * (mh / h1), mh) else (w1, h1)

/-- `_process_image` (lines 137-203): src/alt extraction, acquisition,
raster validation, role-based fitting.  Every failure (missing `src`,
acquisition failure, invalid image) returns `none`; the caught exceptions
of the source are exactly these `none` results. -/
def process_image (env : Env) (line : List Char) (s : AcqState) :
    Option (ℚ × ℚ × List Nat) × AcqState :=
  match extractSrc line with
  | none => (none, s)
  | some src =>
    let alt := (extractAlt line).getD "Image".toList
    match download_image env src s with
    | (none, s1) => (none, s1)
    | (some bytes, s1) =>
      match env.imgDims bytes with
      | none => (none, s1)
      | some (w, h) =>
        let f := fitDims alt w h
        (some (f.1, f.2, bytes), s1)

/-! ### The line scanner (`_html_to_story`) -/

/-- A Story element: a styled text flowable (`Paragraph(text, styles[style])`)
or a fitted image flowable. -/
inductive Elem where
  | text (content : List Char) (style : String)
  | image (w h : ℚ) (bytes : List Nat)
deriving DecidableEq

/-- The mutable scan state of `_html_to_story` plus the acquisition state. -/
structure ScanState where
  story : List Elem
  currentParagraph : List (List Char)
  inCodeBlock : Bool
  currentCodeBlock : List (List Char)
  currentLanguage : Option (List Char)
  acq : AcqState
deriving DecidableEq

/-- Fresh converter state (`__init__` plus the `convert_to_pdf` reset). -/
def initState : ScanState :=
  { story := [], currentParagraph := [], inCodeBlock := false,
    currentCodeBlock := [], currentLanguage := none,
    acq := { imageCache := [], fetchCount := 0, decodeCount := 0 } }

/-- `_get_code_style` (lines 205-214). -/
def get_code_style (language : Option (List Char)) : String :=
  let l := (language.map lowerStr).getD []
  if l = "python".toList then "MarkdownCodePython"
  else if l = "javascript".toList ∨ l = "js".toList then "MarkdownCodeJavaScript"
  else if l = "shell".toList ∨ l = "bash".toList ∨ l = "sh".toList then "MarkdownCodeShell"
  else "MarkdownCode"

/-- `_add_paragraph` (lines 355-363): emit a Normal-styled text element only
when the raw text and its cleaned form are non-blank. -/
def add_paragraph (st : ScanState) (text : List Char) : ScanState :=
  if pstrip text = [] then st
  else
    let ct := clean_html_tags text
    if pstrip ct = [] then st
    else { st with story := st.story ++ [Elem.text ct "Normal"] }

/-- The `if current_paragraph: self._add_paragraph('\n'.join(...))` flush
prelude repeated at every structural boundary, with the accumulator reset. -/
def flushParagraph (st : ScanState) : ScanState :=
  if st.currentParagraph = [] then st
  else add_paragraph { st with currentParagraph := [] } (joinNL st.currentParagraph)

/-- One iteration of the `for line in lines` loop of `_html_to_story`
(lines 226-349), branch for branch. -/
def processLine (env : Env) (st : ScanState) (rawLine : List Char) : ScanState :=
  let t := pstrip rawLine
  if t = [] then st
  else if hasSub "<code".toList t || hasSub "<pre".toList t then
    let st1 := flushParagraph st
    if ¬ st1.inCodeBlock then
      let lang := extractLanguage t
      let t1 := stripTags t
      let st2 := { st1 with inCodeBlock := true, currentLanguage := lang }
      if pstrip t1 ≠ [] then { st2 with currentCodeBlock := st2.currentCodeBlock ++ [t1] }
      else st2
    else
      { st1 with currentCodeBlock := st1.currentCodeBlock ++ [t] }
  else if st.inCodeBlock ∧ (hasSub "</code>".toList t || hasSub "</pre>".toList t) then
    let t1 := stripClosingTags t
    let blk := if pstrip t1 ≠ [] then st.currentCodeBlock ++ [t1] else st.currentCodeBlock
    let codeText := clean_html_tags (joinNL blk)
    { st with
      story := st.story ++ [Elem.text codeText (get_code_style st.currentLanguage)],
      inCodeBlock := false, currentCodeBlock := [], currentLanguage := none }
  else if st.inCodeBlock then
    { st with currentCodeBlock := st.currentCodeBlock ++ [t] }
  else if "<h1".toList.isPrefixOf t then
    let st1 := flushParagraph st
    match matchHeading '1' t with
    | some txt => { st1 with story := st1.story ++ [Elem.text txt "CustomHeading1"] }
    | none => st1
  else if "<h2".toList.isPrefixOf t then
    let st1 := flushParagraph st
    match matchHeading '2' t with
    | some txt => { st1 with story := st1.story ++ [Elem.text txt "CustomHeading2"] }
    | none => st1
  else if "<h3".toList.isPrefixOf t then
    let st1 := flushParagraph st
    match matchHeading '3' t with
    | some txt => { st1 with story := st1.story ++ [Elem.text txt "CustomHeading3"] }
    | none => st1
  else if hasSub "<img".toList t then
    let st1 := flushParagraph st
    match process_image env t st1.acq with
    | (some (w, h, bytes), a1) =>
      { st1 with acq := a1, story := st1.story ++ [Elem.image w h bytes] }
    | (none, a1) => { st1 with acq := a1 }
  else if "<blockquote>".toList.isPrefixOf t then
    let st1 := flushParagraph st
    let txt := clean_html_tags (removeBQ t)
    { st1 with story := st1.story ++ [Elem.text txt "BlockQuote"] }
  else if hasSub "<table>".toList t then
    flushParagraph st
  else
    { st with currentParagraph := st.currentParagraph ++ [t] }

/-- The whole `for` loop. -/
def runLines (env : Env) (st : ScanState) : List (List Char) → ScanState
  | [] => st
  | l :: ls => runLines env (processLine env st l) ls

/-- `_html_to_story` (lines 216-353): split, scan, flush the open paragraph
at end of input, and return the resulting Story. -/
def html_to_story (env : Env) (html : List Char) : List Elem :=
  (flushParagraph (runLines env initState (splitLines html))).story

/-- An environment in which every external operation fails. -/
def envFail : Env :=
  { fetch := fun _ => none, b64decode := fun _ => none, imgDims := fun _ => none }

/-- An environment whose fetch always succeeds with the byte `[7]`. -/
def envOk : Env :=
  { fetch := fun _ => some [7], b64decode := fun _ => none, imgDims := fun _ => none }

/-! ### Spec-side definitions (for comparison with the code-side ones) -/

/-- The image roles named by the spec. -/
inductive ImageRole where
  | Ordinary
  | InlineMath
  | BlockMath
deriving DecidableEq

/-- Modelled from the spec's classification rule (§3): math iff the alt text
contains "math" case-insensitively; among math images, inline iff the alt
text contains "inline" or the decoded height is below 30 display units. -/
def specRole (alt : List Char) (h : ℚ) : ImageRole :=
  if hasSub "math".toList (lowerStr alt) then
    if hasSub "inline".toList (lowerStr alt) || h < 30 then ImageRole.InlineMath
    else ImageRole.BlockMath
  else ImageRole.Ordinary

/-- Modelled from the spec's bounding boxes (§4.2), in points (1 in = 72 pt):
Ordinary 6in×4in, InlineMath 4in×0.5in, BlockMath 5in×2in. -/
def specBox : ImageRole → ℚ × ℚ
  | ImageRole.Ordinary => (6 * 72, 4 * 72)
  | ImageRole.InlineMath => (4 * 72, (1 / 2 : ℚ) * 72)
  | ImageRole.BlockMath => (5 * 72, 2 * 72)

/-- Modelled from claim C2's words: the number of maximal blank-line-separated
runs of non-blank lines. -/
def countRunsAux : Bool → List (List Char) → Nat
  | _, [] => 0
  | inRun, l :: ls =>
    if pstrip l = [] then countRunsAux false ls
    else (if inRun then 0 else 1) + countRunsAux true ls

/-- Number of blank-separated paragraph runs in a line list. -/
def countRuns (ls : List (List Char)) : Nat := countRunsAux false ls

/-- The non-blank lines of the input, each stripped (the text the scanner
accumulates into its single merged paragraph). -/
def nbLines (ls : List (List Char)) : List (List Char) :=
  (ls.map pstrip).filter (fun t => !t.isEmpty)

/-- A scan state with only the paragraph accumulator and acquisition state
set: the shape every plain-text-only prefix of the input leaves behind. -/
def stateP (ps : List (List Char)) (a : AcqState) : ScanState :=
  { story := [], currentParagraph := ps, inCodeBlock := false,
    currentCodeBlock := [], currentLanguage := none, acq := a }

/-- The conditions routing a (stripped) line to the table branch of
`_html_to_story`: every earlier branch declines and `<table>` occurs. -/
def isTableLine (st : ScanState) (t : List Char) : Prop :=
  hasSub "<code".toList t = false ∧ hasSub "<pre".toList t = false ∧
  st.inCodeBlock = false ∧
  "<h1".toList.isPrefixOf t = false ∧ "<h2".toList.isPrefixOf t = false ∧
  "<h3".toList.isPrefixOf t = false ∧ hasSub "<img".toList t = false ∧
  "<blockquote>".toList.isPrefixOf t = false ∧ hasSub "<table>".toList t = true

/-- The conditions routing a (stripped) line to the image branch of
`_html_to_story`: no code marker, not inside a code block, no heading
opening, and an `<img` occurrence. -/
def isImageLine (st : ScanState) (t : List Char) : Prop :=
  hasSub "<code".toList t = false ∧ hasSub "<pre".toList t = false ∧
  st.inCodeBlock = false ∧
  "<h1".toList.isPrefixOf t = false ∧ "<h2".toList.isPrefixOf t = false ∧
  "<h3".toList.isPrefixOf t = false ∧ hasSub "<img".toList t = true

/-- The conditions routing a (stripped) line to the code-block-closing branch
of `_html_to_story`. -/
def isClosingLine (st : ScanState) (t : List Char) : Prop :=
  hasSub "<code".toList t = false ∧ hasSub "<pre".toList t = false ∧
  st.inCodeBlock = true ∧
  (hasSub "</code>".toList t || hasSub "</pre>".toList t) = true

/-- The code text emitted when a code block closes on line `t`: the closing
tags are removed from `t`, its residue (if non-blank) is appended to the
accumulated block, and the joined block is cleaned. -/
def closedText (st : ScanState) (t : List Char) : List Char :=
  let t1 := stripClosingTags t
  clean_html_tags (joinNL
    (if pstrip t1 ≠ [] then st.currentCodeBlock ++ [t1] else st.currentCodeBlock))

/-- A state whose paragraph accumulator holds one pending line. -/
def stPara : ScanState := { initState with currentParagraph := ["hello".toList] }

/-- A state in the middle of a code block with an empty accumulator. -/
def stCode : ScanState := { initState with inCodeBlock := true }

def aCached : AcqState :=
  { imageCache := [("http://x".toList, [7])], fetchCount := 1, decodeCount := 0 }

/-! ### Helper lemmas about the string primitives -/

lemma hasSub_correct (pat s : List Char) : hasSub pat s = true ↔ pat <:+: s := by
  induction s with
  | nil => simp [hasSub, List.isEmpty_iff]
  | cons c rest ih =>
    simp [hasSub, Bool.or_eq_true, List.isPrefixOf_iff_prefix, ih, List.infix_cons_iff]

lemma hasSub_subset {pat s : List Char} (h : hasSub pat s = true) : pat ⊆ s :=
  ((hasSub_correct pat s).mp h).subset

lemma hasSub_false_of_not_mem {pat s : List Char} (c : Char) (hc : c ∈ pat)
    (hs : c ∉ s) : hasSub pat s = false := by
  by_contra h
  rw [Bool.not_eq_false] at h
  exact hs (hasSub_subset h hc)

lemma isPrefixOf_false_of_not_mem {pat s : List Char} (c : Char) (hc : c ∈ pat)
    (hs : c ∉ s) : pat.isPrefixOf s = false := by
  by_contra h
  rw [Bool.not_eq_false, List.isPrefixOf_iff_prefix] at h
  exact hs (h.sublist.subset hc)

lemma infix_map (f : Char → Char) {l₁ l₂ : List Char} (h : l₁ <:+: l₂) :
    l₁.map f <:+: l₂.map f := by
  obtain ⟨s, t, rfl⟩ := h
  exact ⟨s.map f, t.map f, by simp⟩

lemma mem_dropWhile_of_not {p : Char → Bool} {c : Char} {l : List Char}
    (hc : c ∈ l) (hp : p c = false) : c ∈ l.dropWhile p := by
  induction l with
  | nil => simp at hc
  | cons a l ih =>
    rw [List.dropWhile_cons]
    by_cases ha : p a = true
    · rw [if_pos ha]
      rcases List.mem_cons.mp hc with rfl | hc2
      · rw [ha] at hp; exact absurd hp (by simp)
      · exact ih hc2
    · rw [if_neg ha]
      exact hc

lemma mem_pstrip {s : List Char} {c : Char} (hc : c ∈ s) (hw : isWS c = false) :
    c ∈ pstrip s := by
  unfold pstrip
  rw [List.mem_reverse]
  exact mem_dropWhile_of_not (List.mem_reverse.mpr (mem_dropWhile_of_not hc hw)) hw

lemma pstrip_subset (s : List Char) : pstrip s ⊆ s := by
  intro c hc
  unfold pstrip at hc
  rw [List.mem_reverse] at hc
  have h1 : c ∈ (s.dropWhile isWS).reverse := (List.dropWhile_sublist _).subset hc
  rw [List.mem_reverse] at h1
  exact (List.dropWhile_sublist _).subset h1

lemma pstrip_eq_nil_iff {s : List Char} : pstrip s = [] ↔ ∀ c ∈ s, isWS c = true := by
  constructor
  · intro h c hc
    by_contra hw
    rw [Bool.not_eq_true] at hw
    have hm := mem_pstrip hc hw
    rw [h] at hm
    exact absurd hm (List.not_mem_nil c)
  · intro h
    have h1 : s.dropWhile isWS = [] := List.dropWhile_eq_nil_iff.mpr h
    simp [pstrip, h1]

lemma mem_joinNL {c : Char} {ts : List (List Char)} (h : c ∈ joinNL ts) :
    c = '\n' ∨ ∃ t ∈ ts, c ∈ t := by
  induction ts with
  | nil => simp [joinNL] at h
  | cons p rest ih =>
    cases rest with
    | nil =>
      rw [joinNL] at h
      exact Or.inr ⟨p, by simp, h⟩
    | cons q rest2 =>
      rw [joinNL] at h
      rcases List.mem_append.mp h with h1 | h2
      · exact Or.inr ⟨p, by simp, h1⟩
      · rcases List.mem_cons.mp h2 with rfl | h3
        · exact Or.inl rfl
        · rcases ih h3 with h4 | ⟨t, ht, hct⟩
          · exact Or.inl h4
          · exact Or.inr ⟨t, List.mem_cons_of_mem p ht, hct⟩

lemma mem_joinNL_head {c : Char} {t : List Char} {ts : List (List Char)}
    (h : c ∈ t) : c ∈ joinNL (t :: ts) := by
  cases ts with
  | nil => rw [joinNL]; exact h
  | cons q rest => rw [joinNL]; exact List.mem_append.mpr (Or.inl h)

lemma replLt_id {s : List Char} (h : '&' ∉ s) : replLt s = s := by
  induction s with
  | nil => rfl
  | cons c rest ih =>
    have hc : c ≠ '&' := fun he => h (he ▸ List.mem_cons_self c rest)
    have h2 : '&' ∉ rest := fun hm => h (List.mem_cons_of_mem c hm)
    rw [replLt.eq_def]
    split
    · rename_i r heq
      simp only [List.cons.injEq] at heq
      exact absurd heq.1 hc
    · rename_i c2 r2 heq
      simp only [List.cons.injEq] at heq
      obtain ⟨rfl, rfl⟩ := heq
      rw [ih h2]
    · rename_i heq
      simp at heq

lemma replGt_id {s : List Char} (h : '&' ∉ s) : replGt s = s := by
  induction s with
  | nil => rfl
  | cons c rest ih =>
    have hc : c ≠ '&' := fun he => h (he ▸ List.mem_cons_self c rest)
    have h2 : '&' ∉ rest := fun hm => h (List.mem_cons_of_mem c hm)
    rw [replGt.eq_def]
    split
    · rename_i r heq
      simp only [List.cons.injEq] at heq
      exact absurd heq.1 hc
    · rename_i c2 r2 heq
      simp only [List.cons.injEq] at heq
      obtain ⟨rfl, rfl⟩ := heq
      rw [ih h2]
    · rename_i heq
      simp at heq

lemma replAmp_id {s : List Char} (h : '&' ∉ s) : replAmp s = s := by
  induction s with
  | nil => rfl
  | cons c rest ih =>
    have hc : c ≠ '&' := fun he => h (he ▸ List.mem_cons_self c rest)
    have h2 : '&' ∉ rest := fun hm => h (List.mem_cons_of_mem c hm)
    rw [replAmp.eq_def]
    split
    · rename_i r heq
      simp only [List.cons.injEq] at heq
      exact absurd heq.1 hc
    · rename_i c2 r2 heq
      simp only [List.cons.injEq] at heq
      obtain ⟨rfl, rfl⟩ := heq
      rw [ih h2]
    · rename_i heq
      simp at heq

lemma replQuot_id {s : List Char} (h : '&' ∉ s) : replQuot s = s := by
  induction s with
  | nil => rfl
  | cons c rest ih =>
    have hc : c ≠ '&' := fun he => h (he ▸ List.mem_cons_self c rest)
    have h2 : '&' ∉ rest := fun hm => h (List.mem_cons_of_mem c hm)
    rw [replQuot.eq_def]
    split
    · rename_i r heq
      simp only [List.cons.injEq] at heq
      exact absurd heq.1 hc
    · rename_i c2 r2 heq
      simp only [List.cons.injEq] at heq
      obtain ⟨rfl, rfl⟩ := heq
      rw [ih h2]
    · rename_i heq
      simp at heq

lemma replNbsp_id {s : List Char} (h : '&' ∉ s) : replNbsp s = s := by
  induction s with
  | nil => rfl
  | cons c rest ih =>
    have hc : c ≠ '&' := fun he => h (he ▸ List.mem_cons_self c rest)
    have h2 : '&' ∉ rest := fun hm => h (List.mem_cons_of_mem c hm)
    rw [replNbsp.eq_def]
    split
    · rename_i r heq
      simp only [List.cons.injEq] at heq
      exact absurd heq.1 hc
    · rename_i c2 r2 heq
      simp only [List.cons.injEq] at heq
      obtain ⟨rfl, rfl⟩ := heq
      rw [ih h2]
    · rename_i heq
      simp at heq

lemma stripTagsAux_none_id {s : List Char} (h : '<' ∉ s) : stripTagsAux none s = s := by
  induction s with
  | nil => rfl
  | cons c rest ih =>
    have hc : ¬ c = '<' := fun he => h (he ▸ List.mem_cons_self c rest)
    have h2 : '<' ∉ rest := fun hm => h (List.mem_cons_of_mem c hm)
    simp [stripTagsAux, hc, ih h2]

lemma clean_id {s : List Char} (h : ∀ c ∈ s, c ≠ '<' ∧ c ≠ '&') :
    clean_html_tags s = s := by
  have hamp : '&' ∉ s := fun hm => (h _ hm).2 rfl
  have hlt : '<' ∉ s := fun hm => (h _ hm).1 rfl
  unfold clean_html_tags decodeEntities stripTags
  rw [replLt_id hamp, replGt_id hamp, replAmp_id hamp, replQuot_id hamp,
    replNbsp_id hamp, stripTagsAux_none_id hlt]


lemma flush_currentParagraph (st : ScanState) : (flushParagraph st).currentParagraph = [] := by
  simp only [flushParagraph, add_paragraph]
  split_ifs <;> simp_all

lemma flush_inCodeBlock (st : ScanState) : (flushParagraph st).inCodeBlock = st.inCodeBlock := by
  simp only [flushParagraph, add_paragraph]
  split_ifs <;> simp_all

lemma flush_currentCodeBlock (st : ScanState) :
    (flushParagraph st).currentCodeBlock = st.currentCodeBlock := by
  simp only [flushParagraph, add_paragraph]
  split_ifs <;> simp_all

lemma flush_currentLanguage (st : ScanState) :
    (flushParagraph st).currentLanguage = st.currentLanguage := by
  simp only [flushParagraph, add_paragraph]
  split_ifs <;> simp_all

lemma flush_acq (st : ScanState) : (flushParagraph st).acq = st.acq := by
  simp only [flushParagraph, add_paragraph]
  split_ifs <;> simp_all

lemma flush_story_cases (st : ScanState) :
    (flushParagraph st).story = st.story ∨
    ∃ e, (flushParagraph st).story = st.story ++ [e] := by
  simp only [flushParagraph, add_paragraph]
  split_ifs <;> simp

lemma processLine_closing (env : Env) (st : ScanState) (line : List Char)
    (hc : isClosingLine st (pstrip line)) :
    processLine env st line =
      { st with
        story := st.story ++
          [Elem.text (closedText st (pstrip line)) (get_code_style st.currentLanguage)],
        inCodeBlock := false, currentCodeBlock := [], currentLanguage := none } := by
  obtain ⟨h1, h2, h3, h4⟩ := hc
  have ht : ¬ pstrip line = [] := by
    intro he
    rw [he] at h4
    simp [hasSub] at h4
  simp only [processLine, closedText]
  rw [if_neg ht, if_neg (by rw [h1, h2]; simp), if_pos (by exact ⟨h3, h4⟩)]


lemma processLine_image_fail (env : Env) (st : ScanState) (line : List Char)
    (hc : isImageLine st (pstrip line))
    (hfail : (process_image env (pstrip line) st.acq).1 = none) :
    processLine env st line =
      { flushParagraph st with acq := (process_image env (pstrip line) st.acq).2 } := by
  obtain ⟨h1, h2, h3, h4, h5, h6, h7⟩ := hc
  have ht : ¬ pstrip line = [] := by
    intro he
    rw [he] at h7
    simp [hasSub] at h7
  simp only [processLine]
  rw [if_neg ht, if_neg (by rw [h1, h2]; simp), if_neg (by simp [h3]), if_neg (by simp [h3]),
    if_neg (by rw [h4]; simp), if_neg (by rw [h5]; simp), if_neg (by rw [h6]; simp), if_pos h7, flush_acq]
  have heq : process_image env (pstrip line) st.acq =
      (none, (process_image env (pstrip line) st.acq).2) := by
    rw [← hfail]
  rw [heq]

lemma processLine_table (env : Env) (st : ScanState) (line : List Char)
    (hc : isTableLine st (pstrip line)) :
    processLine env st line = flushParagraph st := by
  obtain ⟨h1, h2, h3, h4, h5, h6, h7, h8, h9⟩ := hc
  have ht : ¬ pstrip line = [] := by
    intro he
    rw [he] at h9
    simp [hasSub] at h9
  simp only [processLine]
  rw [if_neg ht, if_neg (by rw [h1, h2]; simp), if_neg (by simp [h3]), if_neg (by simp [h3]),
    if_neg (by rw [h4]; simp), if_neg (by rw [h5]; simp), if_neg (by rw [h6]; simp), if_neg (by rw [h7]; simp),
    if_neg (by rw [h8]; simp), if_pos h9]

lemma processLine_plain (env : Env) (st : ScanState) (l : List Char)
    (hcb : st.inCodeBlock = false)
    (hpl : ∀ c ∈ pstrip l, c ≠ '<' ∧ c ≠ '&') :
    processLine env st l =
      if pstrip l = [] then st
      else { st with currentParagraph := st.currentParagraph ++ [pstrip l] } := by
  by_cases hnil : pstrip l = []
  · rw [if_pos hnil]
    simp only [processLine]
    rw [if_pos hnil]
  · rw [if_neg hnil]
    have hlt : '<' ∉ pstrip l := fun hm => (hpl _ hm).1 rfl
    have c1 : hasSub "<code".toList (pstrip l) = false :=
      hasSub_false_of_not_mem '<' (by decide) hlt
    have c2 : hasSub "<pre".toList (pstrip l) = false :=
      hasSub_false_of_not_mem '<' (by decide) hlt
    have c3 : hasSub "<img".toList (pstrip l) = false :=
      hasSub_false_of_not_mem '<' (by decide) hlt
    have c4 : hasSub "<table>".toList (pstrip l) = false :=
      hasSub_false_of_not_mem '<' (by decide) hlt
    have p1 : "<h1".toList.isPrefixOf (pstrip l) = false :=
      isPrefixOf_false_of_not_mem '<' (by decide) hlt
    have p2 : "<h2".toList.isPrefixOf (pstrip l) = false :=
      isPrefixOf_false_of_not_mem '<' (by decide) hlt
    have p3 : "<h3".toList.isPrefixOf (pstrip l) = false :=
      isPrefixOf_false_of_not_mem '<' (by decide) hlt
    have pbq : "<blockquote>".toList.isPrefixOf (pstrip l) = false :=
      isPrefixOf_false_of_not_mem '<' (by decide) hlt
    simp only [processLine]
    rw [if_neg hnil, if_neg (by rw [c1, c2]; simp), if_neg (by simp [hcb]),
      if_neg (by simp [hcb]), if_neg (by rw [p1]; simp), if_neg (by rw [p2]; simp),
      if_neg (by rw [p3]; simp), if_neg (by rw [c3]; simp), if_neg (by rw [pbq]; simp),
      if_neg (by rw [c4]; simp)]

lemma flush_story_append (st : ScanState) :
    ∃ d, (flushParagraph st).story = st.story ++ d ∧ d.length ≤ 1 := by
  rcases flush_story_cases st with hf | ⟨e, hf⟩
  exacts [⟨[], by simp [hf], by simp⟩, ⟨[e], hf, by simp⟩]

lemma processLine_inv (env : Env) (st : ScanState) (l : List Char)
    (h : st.currentParagraph = [] ∨ st.inCodeBlock = false) :
    (processLine env st l).currentParagraph = [] ∨
      (processLine env st l).inCodeBlock = false := by
  by_cases hA : pstrip l = []
  · simp only [processLine]; rw [if_pos hA]; exact h
  simp only [processLine]
  rw [if_neg hA]
  by_cases hB : (hasSub "<code".toList (pstrip l) || hasSub "<pre".toList (pstrip l)) = true
  · rw [if_pos hB]
    split_ifs <;> left <;> simp [flush_currentParagraph]
  rw [if_neg hB]
  by_cases hC : st.inCodeBlock = true ∧
      (hasSub "</code>".toList (pstrip l) || hasSub "</pre>".toList (pstrip l)) = true
  · rw [if_pos hC]; right; rfl
  rw [if_neg hC]
  by_cases hD : st.inCodeBlock = true
  · rw [if_pos hD]
    rcases h with h1 | h2
    · left; exact h1
    · exact absurd hD (by simp [h2])
  rw [if_neg hD]
  have hDD : st.inCodeBlock = false := by simpa using hD
  by_cases hE : "<h1".toList.isPrefixOf (pstrip l) = true
  · rw [if_pos hE]
    rcases hm : matchHeading '1' (pstrip l) with _ | txt <;>
      simp [hm, flush_currentParagraph]
  rw [if_neg hE]
  by_cases hF : "<h2".toList.isPrefixOf (pstrip l) = true
  · rw [if_pos hF]
    rcases hm : matchHeading '2' (pstrip l) with _ | txt <;>
      simp [hm, flush_currentParagraph]
  rw [if_neg hF]
  by_cases hG : "<h3".toList.isPrefixOf (pstrip l) = true
  · rw [if_pos hG]
    rcases hm : matchHeading '3' (pstrip l) with _ | txt <;>
      simp [hm, flush_currentParagraph]
  rw [if_neg hG]
  by_cases hH : hasSub "<img".toList (pstrip l) = true
  · rw [if_pos hH]
    rcases hm : process_image env (pstrip l) (flushParagraph st).acq with ⟨r, a1⟩
    rcases r with _ | ⟨w, hh, bytes⟩ <;> simp [hm, flush_currentParagraph]
  rw [if_neg hH]
  by_cases hI : "<blockquote>".toList.isPrefixOf (pstrip l) = true
  · rw [if_pos hI]; left; simp [flush_currentParagraph]
  rw [if_neg hI]
  by_cases hJ : hasSub "<table>".toList (pstrip l) = true
  · rw [if_pos hJ]; left; exact flush_currentParagraph st
  rw [if_neg hJ]
  right; simpa using hDD

lemma processLine_story_append (env : Env) (st : ScanState) (l : List Char) :
    ∃ d, (processLine env st l).story = st.story ++ d ∧ d.length ≤ 2 := by
  obtain ⟨d0, hf, hd0⟩ := flush_story_append st
  by_cases hA : pstrip l = []
  · simp only [processLine]; rw [if_pos hA]; exact ⟨[], by simp, by simp⟩
  simp only [processLine]
  rw [if_neg hA]
  by_cases hB : (hasSub "<code".toList (pstrip l) || hasSub "<pre".toList (pstrip l)) = true
  · rw [if_pos hB]
    refine ⟨d0, ?_, by omega⟩
    split_ifs <;> simp [hf]
  rw [if_neg hB]
  by_cases hC : st.inCodeBlock = true ∧
      (hasSub "</code>".toList (pstrip l) || hasSub "</pre>".toList (pstrip l)) = true
  · rw [if_pos hC]
    exact ⟨_, rfl, by simp⟩
  rw [if_neg hC]
  by_cases hD : st.inCodeBlock = true
  · rw [if_pos hD]; exact ⟨[], by simp, by simp⟩
  rw [if_neg hD]
  by_cases hE : "<h1".toList.isPrefixOf (pstrip l) = true
  · rw [if_pos hE]
    rcases hm : matchHeading '1' (pstrip l) with _ | txt <;> simp only [hm]
    · exact ⟨d0, hf, by omega⟩
    · exact ⟨d0 ++ [Elem.text txt "CustomHeading1"], by simp [hf], by simp; omega⟩
  rw [if_neg hE]
  by_cases hF : "<h2".toList.isPrefixOf (pstrip l) = true
  · rw [if_pos hF]
    rcases hm : matchHeading '2' (pstrip l) with _ | txt <;> simp only [hm]
    · exact ⟨d0, hf, by omega⟩
    · exact ⟨d0 ++ [Elem.text txt "CustomHeading2"], by simp [hf], by simp; omega⟩
  rw [if_neg hF]
  by_cases hG : "<h3".toList.isPrefixOf (pstrip l) = true
  · rw [if_pos hG]
    rcases hm : matchHeading '3' (pstrip l) with _ | txt <;> simp only [hm]
    · exact ⟨d0, hf, by omega⟩
    · exact ⟨d0 ++ [Elem.text txt "CustomHeading3"], by simp [hf], by simp; omega⟩
  rw [if_neg hG]
  by_cases hH : hasSub "<img".toList (pstrip l) = true
  · rw [if_pos hH]
    rcases hm : process_image env (pstrip l) (flushParagraph st).acq with ⟨r, a1⟩
    rcases r with _ | ⟨w, hh, bytes⟩ <;> simp only [hm]
    · exact ⟨d0, hf, by omega⟩
    · exact ⟨d0 ++ [Elem.image w hh bytes], by simp [hf], by simp; omega⟩
  rw [if_neg hH]
  by_cases hI : "<blockquote>".toList.isPrefixOf (pstrip l) = true
  · rw [if_pos hI]
    exact ⟨d0 ++ [Elem.text (clean_html_tags (removeBQ (pstrip l))) "BlockQuote"],
      by simp [hf], by simp; omega⟩
  rw [if_neg hI]
  by_cases hJ : hasSub "<table>".toList (pstrip l) = true
  · rw [if_pos hJ]; exact ⟨d0, hf, by omega⟩
  rw [if_neg hJ]
  exact ⟨[], by simp, by simp⟩



lemma runLines_plain (env : Env) (a : AcqState) :
    ∀ (ls : List (List Char)) (ps : List (List Char)),
      (∀ l ∈ ls, ∀ c ∈ pstrip l, c ≠ '<' ∧ c ≠ '&') →
      runLines env (stateP ps a) ls = stateP (ps ++ nbLines ls) a := by
  intro ls
  induction ls with
  | nil => intro ps _; simp [runLines, nbLines, stateP]
  | cons l rest ih =>
    intro ps h
    rw [runLines]
    rw [processLine_plain env (stateP ps a) l rfl (h l (List.mem_cons_self l rest))]
    by_cases hnil : pstrip l = []
    · rw [if_pos hnil]
      rw [ih ps (fun x hx => h x (List.mem_cons_of_mem l hx))]
      have : nbLines (l :: rest) = nbLines rest := by
        simp [nbLines, List.isEmpty_iff, hnil]
      rw [this]
    · rw [if_neg hnil]
      have hrec : ({ stateP ps a with
          currentParagraph := (stateP ps a).currentParagraph ++ [pstrip l] } : ScanState) =
          stateP (ps ++ [pstrip l]) a := rfl
      rw [hrec, ih (ps ++ [pstrip l]) (fun x hx => h x (List.mem_cons_of_mem l hx))]
      have : nbLines (l :: rest) = pstrip l :: nbLines rest := by
        simp [nbLines, List.isEmpty_iff, hnil]
      rw [this]
      simp

lemma flush_stateP_ne (a : AcqState) (ts : List (List Char)) (hne : ts ≠ [])
    (hplain : ∀ t ∈ ts, ∀ c ∈ t, c ≠ '<' ∧ c ≠ '&')
    (hnb : ∃ c ∈ joinNL ts, isWS c = false) :
    (flushParagraph (stateP ts a)).story = [Elem.text (joinNL ts) "Normal"] := by
  have hplainJ : ∀ c ∈ joinNL ts, c ≠ '<' ∧ c ≠ '&' := by
    intro c hc
    rcases mem_joinNL hc with rfl | ⟨t, ht, hct⟩
    · exact ⟨by decide, by decide⟩
    · exact hplain t ht c hct
  have hclean : clean_html_tags (joinNL ts) = joinNL ts := clean_id hplainJ
  have hnotnil : ¬ pstrip (joinNL ts) = [] := by
    intro hz
    obtain ⟨c, hc, hw⟩ := hnb
    have := pstrip_eq_nil_iff.mp hz c hc
    rw [this] at hw
    exact absurd hw (by simp)
  have hcp : (stateP ts a).currentParagraph = ts := rfl
  simp only [flushParagraph, add_paragraph, hcp]
  rw [if_neg hne, if_neg hnotnil, hclean, if_neg hnotnil]
  rfl



/-- Claim C1 (amended): the text-cleaning operation of the source performs
entity-decoding FIRST and tag-stripping SECOND; on the input
`&lt;b&gt;x&amp;y&lt;/b&gt;` the decoding step yields `<b>x&y</b>` with each
entity decoded exactly once, and the subsequent tag-stripping removes the
reconstructed `<b>`/`</b>` tags, so the cleaning yields `x&y`. -/
theorem claim1_clean :
    clean_html_tags "&lt;b&gt;x&amp;y&lt;/b&gt;".toList = "x&y".toList
    ∧ decodeEntities "&lt;b&gt;x&amp;y&lt;/b&gt;".toList = "<b>x&y</b>".toList
    ∧ ∀ s : List Char, clean_html_tags s = stripTags (decodeEntities s) :=
  ⟨by decide, by decide, fun _ => rfl⟩

/-- Claim C1 counterexample: the cleaning applied to
`&lt;b&gt;x&amp;y&lt;/b&gt;` does NOT yield `<b>x&y</b>` as the claim
states (it yields `x&y`, because the code decodes entities before
stripping tags). -/
theorem claim1_cex :
    clean_html_tags "&lt;b&gt;x&amp;y&lt;/b&gt;".toList ≠ "<b>x&y</b>".toList := by decide

/-- Claim C4 (amended): if an acquisition of `url` SUCCEEDS, a second
acquisition of the same reference is a pure cache hit: it returns the same
bytes and leaves the acquisition state (including both I/O counters)
untouched.  (The unamended claim fails for references whose first
acquisition fails: nothing is cached, so the fetch repeats.) -/
theorem claim4_idem (env : Env) (url : List Char) (a a1 : AcqState) (b : List Nat)
    (hsucc : download_image env url a = (some b, a1)) :
    download_image env url a1 = (some b, a1) := by
  simp only [download_image] at hsucc ⊢
  cases hlk : a.imageCache.lookup url with
  | some b0 =>
    rw [hlk] at hsucc
    injection hsucc with h1 h2
    injection h1 with h1
    subst h1
    subst h2
    rw [hlk]
  | none =>
    rw [hlk] at hsucc
    by_cases hd : "data:".toList.isPrefixOf url = true
    · cases hsplit : findSublist [','] url with
      | none =>
        simp only [hlk, if_pos hd, hsplit] at hsucc
        exact absurd hsucc (by simp)
      | some p =>
        obtain ⟨hdr, payload⟩ := p
        cases hb64 : env.b64decode payload with
        | none =>
          simp only [hlk, if_pos hd, hsplit, hb64] at hsucc
          exact absurd hsucc (by simp)
        | some bytes =>
          simp only [hlk, if_pos hd, hsplit, hb64, Prod.mk.injEq,
            Option.some.injEq] at hsucc
          obtain ⟨rfl, h2⟩ := hsucc
          subst h2
          simp [List.lookup]
    · cases hf : env.fetch url with
      | none =>
        simp only [hlk, if_neg hd, hf] at hsucc
        exact absurd hsucc (by simp)
      | some bytes =>
        simp only [hlk, if_neg hd, hf, Prod.mk.injEq, Option.some.injEq] at hsucc
        obtain ⟨rfl, h2⟩ := hsucc
        subst h2
        simp [List.lookup]

/-- Claim C4 counterexample: with a fetcher that always fails, acquiring
the same remote reference twice performs TWO underlying fetches, because
only successes populate the cache. -/
theorem claim4_cex :
    (download_image envFail "http://x".toList
      (download_image envFail "http://x".toList
        { imageCache := [], fetchCount := 0, decodeCount := 0 }).2).2.fetchCount = 2 := by
  decide

/-- Claim C4 witness: after one successful fetch of `http://x`, the second
acquisition returns the cached bytes with the state unchanged. -/
theorem claim4_wit :
    download_image envOk "http://x".toList aCached = (some [7], aCached) :=
  claim4_idem envOk "http://x".toList
    { imageCache := [], fetchCount := 0, decodeCount := 0 } aCached [7] (by decide)

/-- Claim C6: the bounding box computed by the source equals the box of
the spec's role classification: math iff the alt text contains "math"
case-insensitively (the source's extra `"Math" in alt` disjunct is
subsumed), InlineMath iff math and ("inline" occurs or height < 30), and
the boxes are Ordinary 6in×4in = (432, 288) pt, InlineMath 4in×0.5in =
(288, 36) pt, BlockMath 5in×2in = (360, 144) pt. -/
theorem claim6_role (alt : List Char) (h : ℚ) :
    maxBounds alt h = specBox (specRole alt h)
    ∧ (specRole alt h ≠ ImageRole.Ordinary ↔ hasSub "math".toList (lowerStr alt) = true)
    ∧ (specRole alt h = ImageRole.InlineMath ↔
        (hasSub "math".toList (lowerStr alt) = true ∧
          (hasSub "inline".toList (lowerStr alt) = true ∨ h < 30)))
    ∧ specBox ImageRole.Ordinary = (432, 288)
    ∧ specBox ImageRole.InlineMath = (288, 36)
    ∧ specBox ImageRole.BlockMath = (360, 144) := by
  have hM : hasSub "Math".toList alt = true → hasSub "math".toList (lowerStr alt) = true := by
    intro hm
    have h1 := (hasSub_correct _ _).mp hm
    have h2 := infix_map lowerChar h1
    have h3 : List.map lowerChar "Math".toList = "math".toList := by decide
    rw [h3] at h2
    exact (hasSub_correct _ _).mpr h2
  refine ⟨?_, ?_, ?_, by norm_num [specBox], by norm_num [specBox], by norm_num [specBox]⟩
  · by_cases hb : hasSub "math".toList (lowerStr alt) = true
    · have hb2 := hb
      simp only [String.toList] at hb2
      by_cases hc : hasSub "inline".toList (lowerStr alt) = true ∨ h < 30 <;>
        · have hc2 := hc
          simp only [String.toList] at hc2
          simp [maxBounds, specRole, hb2, hc2, specBox]
    · have hbf : hasSub "math".toList (lowerStr alt) = false := by
        rw [← Bool.not_eq_true]
        exact hb
      have hMf : hasSub "Math".toList alt = false := by
        cases hMc : hasSub "Math".toList alt
        · rfl
        · have hx := hM hMc
          rw [hbf] at hx
          exact absurd hx (by simp)
      have hbf2 := hbf
      have hMf2 := hMf
      simp only [String.toList] at hbf2 hMf2
      simp [maxBounds, specRole, hMf2, hbf2, specBox]
  · by_cases hb : hasSub "math".toList (lowerStr alt) = true
    · constructor
      · intro _
        exact hb
      · intro _
        have hb2 := hb
        simp only [String.toList] at hb2
        by_cases hc : hasSub "inline".toList (lowerStr alt) = true ∨ h < 30 <;>
          · have hc2 := hc
            simp only [String.toList] at hc2
            simp [specRole, hb2, hc2]
    · have hbf : hasSub "math".toList (lowerStr alt) = false := by
        rw [← Bool.not_eq_true]
        exact hb
      have hbf2 := hbf
      simp only [String.toList] at hbf2
      simp [specRole, hbf2, hbf]
  · by_cases hb : hasSub "math".toList (lowerStr alt) = true
    · have hb2 := hb
      simp only [String.toList] at hb2
      by_cases hc : hasSub "inline".toList (lowerStr alt) = true ∨ h < 30 <;>
        · have hc2 := hc
          simp only [String.toList] at hc2
          simp [specRole, hb2, hc2, hb, hc]
    · have hbf : hasSub "math".toList (lowerStr alt) = false := by
        rw [← Bool.not_eq_true]
        exact hb
      have hbf2 := hbf
      simp only [String.toList] at hbf2
      simp [specRole, hbf2, hbf]

/-- Claim C10: the end-of-input step flushes only an open paragraph, never
an open code block: the final Story is independent of the code-block
accumulator, the in-code flag and the pending language, and a concrete
unterminated `<pre>` block yields an empty Story (its accumulated lines
are silently discarded). -/
theorem claim10_unterminated :
    (∀ (st : ScanState) (cb : List (List Char)) (b : Bool) (lang : Option (List Char)),
      (flushParagraph
        { st with currentCodeBlock := cb, inCodeBlock := b, currentLanguage := lang }).story =
        (flushParagraph st).story)
    ∧ html_to_story envFail "<pre>\nx = 1".toList = [] := by
  constructor
  · intro st cb b lang
    simp only [flushParagraph, add_paragraph]
    split_ifs <;> rfl
  · decide



/-- Claim C2 (amended): for input consisting only of blank lines and plain
text lines (no markup or entity characters), ALL non-blank lines merge into
a single paragraph regardless of intervening blank lines (blank lines are
skipped without flushing), so the Story has exactly one element when any
non-blank line exists and zero otherwise. -/
theorem claim2_merge (env : Env) (html : List Char)
    (hpl : ∀ l ∈ splitLines html, ∀ c ∈ l, c ≠ '<' ∧ c ≠ '&') :
    html_to_story env html =
      if nbLines (splitLines html) = [] then []
      else [Elem.text (joinNL (nbLines (splitLines html))) "Normal"] := by
  unfold html_to_story
  have hpl' : ∀ l ∈ splitLines html, ∀ c ∈ pstrip l, c ≠ '<' ∧ c ≠ '&' :=
    fun l hl c hc => hpl l hl c (pstrip_subset l hc)
  have h0 : initState = stateP [] initState.acq := rfl
  rw [h0, runLines_plain env initState.acq (splitLines html) [] hpl']
  rw [List.nil_append]
  set ts := nbLines (splitLines html) with hts_def
  have hts_mem : ∀ t ∈ ts, ∃ l ∈ splitLines html, t = pstrip l ∧ t ≠ [] := by
    intro t ht
    rw [hts_def] at ht
    unfold nbLines at ht
    obtain ⟨htm, htf⟩ := List.mem_filter.mp ht
    obtain ⟨l, hl, rfl⟩ := List.mem_map.mp htm
    refine ⟨l, hl, rfl, ?_⟩
    intro hz
    rw [hz] at htf
    simp at htf
  by_cases hts : ts = []
  · rw [if_pos hts, hts]
    simp [flushParagraph, stateP]
  · rw [if_neg hts]
    have hplain : ∀ t ∈ ts, ∀ c ∈ t, c ≠ '<' ∧ c ≠ '&' := by
      intro t ht c hc
      obtain ⟨l, hl, rfl, _⟩ := hts_mem t ht
      exact hpl' l hl c hc
    have hnb : ∃ c ∈ joinNL ts, isWS c = false := by
      obtain ⟨t0, ts', heq⟩ := List.exists_cons_of_ne_nil hts
      have ht0m : t0 ∈ ts := by rw [heq]; exact List.mem_cons_self t0 ts'
      obtain ⟨l, hl, ht0, ht0ne⟩ := hts_mem t0 ht0m
      have : ¬ ∀ c ∈ l, isWS c = true := by
        intro hall
        exact ht0ne (ht0 ▸ pstrip_eq_nil_iff.mpr hall)
      push_neg at this
      obtain ⟨c, hc, hcw⟩ := this
      have hcw' : isWS c = false := by
        cases hx : isWS c
        · rfl
        · exact absurd hx hcw
      refine ⟨c, ?_, hcw'⟩
      rw [heq]
      exact mem_joinNL_head (ht0 ▸ mem_pstrip hc hcw')
    exact flush_stateP_ne initState.acq ts hts hplain hnb

/-- Claim C2 counterexample: the input `a\n\nb` has two maximal
blank-line-separated runs of non-blank text lines, but the Story gets one
element (the merged paragraph `a\nb`), not two. -/
theorem claim2_cex :
    countRuns (splitLines "a\n\nb".toList) = 2
    ∧ html_to_story envFail "a\n\nb".toList = [Elem.text "a\nb".toList "Normal"]
    ∧ (html_to_story envFail "a\n\nb".toList).length ≠
        countRuns (splitLines "a\n\nb".toList) := by
  refine ⟨by decide, by decide, by decide⟩

/-- Claim C2 witness: the amended claim evaluated at the concrete input
`a\n\nb`. -/
theorem claim2_wit :
    html_to_story envFail "a\n\nb".toList = [Elem.text "a\nb".toList "Normal"] := by
  rw [claim2_merge envFail "a\n\nb".toList (by decide)]
  decide



/-- Claim C3: the image fitter scales width-first: if the width exceeds the
box width, both dimensions scale by boxW/width; then, if the (possibly
width-scaled) height still exceeds the box height, both dimensions scale
again by boxH/height - both height-pass cases (height pass alone, and
height pass after the width pass) are stated with the resulting
dimensions.  It never scales up (an image fitting the box keeps its
natural dimensions, and each result dimension is bounded by the natural
one) and preserves the aspect ratio (`fw * h = fh * w`).  On a 1200×300
Ordinary-role image it yields (432, 108) - the 6in box width and a quarter
of it - with the second (height) pass not applying since
300 * (432/1200) = 108 ≤ 288. -/
theorem claim3_fit (alt : List Char) (w h : ℚ) (hw : 0 < w) (hh : 0 < h) :
    (w ≤ (maxBounds alt h).1 ∧ h ≤ (maxBounds alt h).2 → fitDims alt w h = (w, h))
    ∧ ((maxBounds alt h).1 < w → h * ((maxBounds alt h).1 / w) ≤ (maxBounds alt h).2 →
        fitDims alt w h = ((maxBounds alt h).1, h * ((maxBounds alt h).1 / w)))
    ∧ (¬ (maxBounds alt h).1 < w → (maxBounds alt h).2 < h →
        fitDims alt w h = (w * ((maxBounds alt h).2 / h), (maxBounds alt h).2))
    ∧ ((maxBounds alt h).1 < w → (maxBounds alt h).2 < h * ((maxBounds alt h).1 / w) →
        fitDims alt w h =
          ((maxBounds alt h).1 * ((maxBounds alt h).2 / (h * ((maxBounds alt h).1 / w))),
            (maxBounds alt h).2))
    ∧ (fitDims alt w h).1 ≤ w
    ∧ (fitDims alt w h).2 ≤ h
    ∧ (fitDims alt w h).1 * h = (fitDims alt w h).2 * w
    ∧ fitDims "Image".toList 1200 300 = (432, 108)
    ∧ (300 : ℚ) * ((maxBounds "Image".toList 300).1 / 1200) ≤ (maxBounds "Image".toList 300).2
    ∧ (108 : ℚ) = 432 / 4 := by
  have hmb : maxBounds "Image".toList 300 = (432, 288) := by
    have hfalse : (hasSub "Math".toList "Image".toList ||
        hasSub "math".toList (lowerStr "Image".toList)) = false := by decide
    simp only [maxBounds]
    rw [if_neg (by rw [hfalse]; simp)]
    norm_num
  have hfd : fitDims "Image".toList 1200 300 = (432, 108) := by
    simp only [fitDims, hmb]
    norm_num
  have hboxes : maxBounds alt h = (432, 288) ∨ maxBounds alt h = (288, 36) ∨
      maxBounds alt h = (360, 144) := by
    by_cases h1 : (hasSub "Math".toList alt || hasSub "math".toList (lowerStr alt)) = true
    · by_cases h2 : (hasSub "inline".toList (lowerStr alt) || decide (h < 30)) = true
      · right; left
        simp only [maxBounds]
        rw [if_pos h1, if_pos h2]
        norm_num
      · right; right
        simp only [maxBounds]
        rw [if_pos h1, if_neg h2]
        norm_num
    · left
      simp only [maxBounds]
      rw [if_neg h1]
      norm_num
  have hmwpos : 0 < (maxBounds alt h).1 := by
    rcases hboxes with hb | hb | hb <;> rw [hb] <;> norm_num
  have hmhpos : 0 < (maxBounds alt h).2 := by
    rcases hboxes with hb | hb | hb <;> rw [hb] <;> norm_num
  have hwne : w ≠ 0 := ne_of_gt hw
  have hhne : h ≠ 0 := ne_of_gt hh
  have hmain :
      (¬ (maxBounds alt h).1 < w ∧ ¬ (maxBounds alt h).2 < h ∧ fitDims alt w h = (w, h))
      ∨ (¬ (maxBounds alt h).1 < w ∧ (maxBounds alt h).2 < h ∧
          fitDims alt w h = (w * ((maxBounds alt h).2 / h), (maxBounds alt h).2))
      ∨ ((maxBounds alt h).1 < w ∧ h * ((maxBounds alt h).1 / w) ≤ (maxBounds alt h).2 ∧
          fitDims alt w h = ((maxBounds alt h).1, h * ((maxBounds alt h).1 / w)))
      ∨ ((maxBounds alt h).1 < w ∧ (maxBounds alt h).2 < h * ((maxBounds alt h).1 / w) ∧
          fitDims alt w h =
            ((maxBounds alt h).1 * ((maxBounds alt h).2 / (h * ((maxBounds alt h).1 / w))),
              (maxBounds alt h).2)) := by
    by_cases hcw : (maxBounds alt h).1 < w
    · by_cases hch : (maxBounds alt h).2 < h * ((maxBounds alt h).1 / w)
      · right; right; right
        refine ⟨hcw, hch, ?_⟩
        simp only [fitDims]
        rw [if_pos hcw, if_pos hcw, if_pos hch]
      · right; right; left
        refine ⟨hcw, not_lt.mp hch, ?_⟩
        simp only [fitDims]
        rw [if_pos hcw, if_pos hcw, if_neg hch]
    · by_cases hch : (maxBounds alt h).2 < h
      · right; left
        refine ⟨hcw, hch, ?_⟩
        simp only [fitDims]
        rw [if_neg hcw, if_neg hcw, if_pos hch]
      · left
        refine ⟨hcw, hch, ?_⟩
        simp only [fitDims]
        rw [if_neg hcw, if_neg hcw, if_neg hch]
  refine ⟨?_, ?_, ?_, ?_, ?_, ?_, ?_, hfd, by rw [hmb]; norm_num, by norm_num⟩
  · rintro ⟨hle1, hle2⟩
    rcases hmain with ⟨_, _, hfv⟩ | ⟨hc1, hc2, hfv⟩ | ⟨hc1, hc2, hfv⟩ | ⟨hc1, hc2, hfv⟩
    · exact hfv
    · exact absurd hc2 (not_lt.mpr hle2)
    · exact absurd hc1 (not_lt.mpr hle1)
    · exact absurd hc1 (not_lt.mpr hle1)
  · intro hgt hle
    rcases hmain with ⟨hc1, hc2, hfv⟩ | ⟨hc1, hc2, hfv⟩ | ⟨hc1, hc2, hfv⟩ | ⟨hc1, hc2, hfv⟩
    · exact absurd hgt hc1
    · exact absurd hgt hc1
    · exact hfv
    · exact absurd hc2 (not_lt.mpr hle)
  · intro hnlt hch
    rcases hmain with ⟨hc1, hc2, hfv⟩ | ⟨hc1, hc2, hfv⟩ | ⟨hc1, hc2, hfv⟩ | ⟨hc1, hc2, hfv⟩
    · exact absurd hch hc2
    · exact hfv
    · exact absurd hc1 hnlt
    · exact absurd hc1 hnlt
  · intro hgt hch
    rcases hmain with ⟨hc1, hc2, hfv⟩ | ⟨hc1, hc2, hfv⟩ | ⟨hc1, hc2, hfv⟩ | ⟨hc1, hc2, hfv⟩
    · exact absurd hgt hc1
    · exact absurd hgt hc1
    · exact absurd hch (not_lt.mpr hc2)
    · exact hfv
  · rcases hmain with ⟨hc1, hc2, hfv⟩ | ⟨hc1, hc2, hfv⟩ | ⟨hc1, hc2, hfv⟩ | ⟨hc1, hc2, hfv⟩
    · rw [hfv]
    · rw [hfv]
      show w * ((maxBounds alt h).2 / h) ≤ w
      have hle1 : (maxBounds alt h).2 / h ≤ 1 := (div_le_one hh).mpr (le_of_lt hc2)
      nlinarith
    · rw [hfv]
      show (maxBounds alt h).1 ≤ w
      exact le_of_lt hc1
    · rw [hfv]
      show (maxBounds alt h).1 * ((maxBounds alt h).2 / (h * ((maxBounds alt h).1 / w))) ≤ w
      have hpos1 : 0 < h * ((maxBounds alt h).1 / w) := by positivity
      have hle1 : (maxBounds alt h).2 / (h * ((maxBounds alt h).1 / w)) ≤ 1 :=
        (div_le_one hpos1).mpr (le_of_lt hc2)
      nlinarith
  · rcases hmain with ⟨hc1, hc2, hfv⟩ | ⟨hc1, hc2, hfv⟩ | ⟨hc1, hc2, hfv⟩ | ⟨hc1, hc2, hfv⟩
    · rw [hfv]
    · rw [hfv]
      show (maxBounds alt h).2 ≤ h
      exact le_of_lt hc2
    · rw [hfv]
      show h * ((maxBounds alt h).1 / w) ≤ h
      have hle1 : (maxBounds alt h).1 / w ≤ 1 := (div_le_one hw).mpr (le_of_lt hc1)
      nlinarith
    · rw [hfv]
      show (maxBounds alt h).2 ≤ h
      have hle1 : (maxBounds alt h).1 / w ≤ 1 := (div_le_one hw).mpr (le_of_lt hc1)
      have hle2 : h * ((maxBounds alt h).1 / w) ≤ h := by nlinarith
      linarith
  · rcases hmain with ⟨hc1, hc2, hfv⟩ | ⟨hc1, hc2, hfv⟩ | ⟨hc1, hc2, hfv⟩ | ⟨hc1, hc2, hfv⟩
    · rw [hfv]
      show w * h = h * w
      ring
    · rw [hfv]
      show (w * ((maxBounds alt h).2 / h)) * h = (maxBounds alt h).2 * w
      field_simp
      try ring
    · rw [hfv]
      show (maxBounds alt h).1 * h = (h * ((maxBounds alt h).1 / w)) * w
      field_simp
      try ring
    · rw [hfv]
      show ((maxBounds alt h).1 * ((maxBounds alt h).2 / (h * ((maxBounds alt h).1 / w)))) * h =
        (maxBounds alt h).2 * w
      have hpos1 : h * ((maxBounds alt h).1 / w) ≠ 0 := by positivity
      field_simp
      try ring

/-- Claim C3 witness: the fitting theorem applied at the concrete
1200×300 Ordinary-role image. -/
theorem claim3_wit :
    (0 : ℚ) < 1200 ∧ (0 : ℚ) < 300 ∧ fitDims "Image".toList 1200 300 = (432, 108) :=
  ⟨by norm_num, by norm_num,
    (claim3_fit "Image".toList 1200 300 (by norm_num) (by norm_num)).2.2.2.2.2.2.2.1⟩



/-- Claim C5: when the image branch's acquisition/validation fails
(`process_image` returns `none`), processing the image line appends no
element to the Story beyond the preceding paragraph flush, the scan state
is the flushed state (plus the recorded acquisition attempt), and the scan
of the remaining lines continues from it unaffected.  No exception
propagates: the embedded `process_image` is total, mirroring the
`try/except` blocks of the source. -/
theorem claim5_image_fail (env : Env) (st : ScanState) (line : List Char)
    (rest : List (List Char)) (hc : isImageLine st (pstrip line))
    (hfail : (process_image env (pstrip line) st.acq).1 = none) :
    processLine env st line =
      { flushParagraph st with acq := (process_image env (pstrip line) st.acq).2 }
    ∧ (processLine env st line).story = (flushParagraph st).story
    ∧ runLines env st (line :: rest) = runLines env (processLine env st line) rest := by
  have he := processLine_image_fail env st line hc hfail
  exact ⟨he, by rw [he], rfl⟩

/-- Claim C5 witness: a concrete `<img>` line whose remote fetch fails
leaves the Story exactly as the paragraph flush left it. -/
theorem claim5_wit :
    (processLine envFail initState "<img src=\"http://a\" alt=\"x\">".toList).story =
      (flushParagraph initState).story :=
  (claim5_image_fail envFail initState "<img src=\"http://a\" alt=\"x\">".toList []
    ⟨by decide, by decide, rfl, by decide, by decide, by decide, by decide⟩
    (by decide)).2.1

/-- Claim C7: the Story is append-only: every processed line extends the
Story by at most two elements (at most one for the paragraph block it
closes plus at most one for the block the line itself ends), a paragraph
flush appends at most one element, and a table line contributes no element
of its own - it exactly performs the paragraph flush. -/
theorem claim7_order (env : Env) (st : ScanState) (line : List Char) :
    (∃ d, (processLine env st line).story = st.story ++ d ∧ d.length ≤ 2)
    ∧ (∃ d, (flushParagraph st).story = st.story ++ d ∧ d.length ≤ 1)
    ∧ (isTableLine st (pstrip line) → processLine env st line = flushParagraph st) :=
  ⟨processLine_story_append env st line, flush_story_append st,
    fun hc => processLine_table env st line hc⟩

/-- Claim C7 witness: a `<table>` line processed with a pending paragraph
equals the pure paragraph flush (the table block is dropped). -/
theorem claim7_wit :
    processLine envFail stPara "<table>x</table>".toList = flushParagraph stPara :=
  (claim7_order envFail stPara "<table>x</table>".toList).2.2
    ⟨by decide, by decide, rfl, by decide, by decide, by decide, by decide, by decide,
      by decide⟩

/-- Claim C8: at every scan position at most one block accumulator is
active: scanning any line list from the initial state never reaches a
state that is inside a code block while holding a non-empty paragraph
accumulator, because every transition into code-block accumulation first
flushes the open paragraph. -/
theorem claim8_single_accumulator (env : Env) (ls : List (List Char)) :
    (runLines env initState ls).currentParagraph = [] ∨
      (runLines env initState ls).inCodeBlock = false := by
  have hgen : ∀ (ls2 : List (List Char)) (st : ScanState),
      st.currentParagraph = [] ∨ st.inCodeBlock = false →
      (runLines env st ls2).currentParagraph = [] ∨
        (runLines env st ls2).inCodeBlock = false := by
    intro ls2
    induction ls2 with
    | nil => intro st h; exact h
    | cons l rest ih =>
      intro st h
      rw [runLines]
      exact ih (processLine env st l) (processLine_inv env st l h)
  exact hgen ls initState (Or.inl rfl)

/-- Claim C9: code style selection: `python` maps to the Python preset,
`javascript`/`js` to the JavaScript preset, `shell`/`bash`/`sh` to the
shell preset, any other (or absent) language to the default monospace
style; the four style names are pairwise distinct; and a line closing a
code block appends exactly one element styled by the block's language -
unconditionally, even when the accumulated body is empty. -/
theorem claim9_code_style (env : Env) (st : ScanState) (line : List Char) :
    get_code_style (some "python".toList) = "MarkdownCodePython"
    ∧ get_code_style (some "javascript".toList) = "MarkdownCodeJavaScript"
    ∧ get_code_style (some "js".toList) = "MarkdownCodeJavaScript"
    ∧ get_code_style (some "shell".toList) = "MarkdownCodeShell"
    ∧ get_code_style (some "bash".toList) = "MarkdownCodeShell"
    ∧ get_code_style (some "sh".toList) = "MarkdownCodeShell"
    ∧ get_code_style none = "MarkdownCode"
    ∧ (∀ lang : Option (List Char),
        ((lang.map lowerStr).getD []) ∉
          (["python".toList, "javascript".toList, "js".toList,
            "shell".toList, "bash".toList, "sh".toList] : List (List Char)) →
        get_code_style lang = "MarkdownCode")
    ∧ (["MarkdownCodePython", "MarkdownCodeJavaScript", "MarkdownCodeShell",
        "MarkdownCode"] : List String).Nodup
    ∧ (isClosingLine st (pstrip line) →
        processLine env st line =
          { st with
            story := st.story ++ [Elem.text (closedText st (pstrip line))
              (get_code_style st.currentLanguage)],
            inCodeBlock := false, currentCodeBlock := [], currentLanguage := none }) := by
  refine ⟨by decide, by decide, by decide, by decide, by decide, by decide, by decide, ?_,
    by decide, fun hc => processLine_closing env st line hc⟩
  intro lang hmem
  simp only [List.mem_cons, List.not_mem_nil, or_false, not_or] at hmem
  obtain ⟨n1, n2, n3, n4, n5, n6⟩ := hmem
  simp only [get_code_style]
  rw [if_neg n1, if_neg (not_or.mpr ⟨n2, n3⟩),
    if_neg (by rintro (hx | hx | hx); exacts [n4 hx, n5 hx, n6 hx])]

/-- Claim C9 witness: closing an empty code block with `</code>` appends
exactly one (empty, default-styled) code element. -/
theorem claim9_wit :
    processLine envFail stCode "</code>".toList =
      { stCode with
        story := [Elem.text [] "MarkdownCode"], inCodeBlock := false,
        currentCodeBlock := [], currentLanguage := none } := by
  have h := (claim9_code_style envFail stCode "</code>".toList).2.2.2.2.2.2.2.2.2
    ⟨by decide, by decide, rfl, by decide⟩
  rw [h]
  decide


end Md2Pdf
